import Mathlib

/-!
Verification of the nix-remote-rust wire protocol implementation.

This development gives a shallow embedding, in Lean, of the byte-level
(de)serialization code of the repository and proves the specified
properties about it:

* `serialize.rs`: the primitive u64 / byte-buffer codec (`read_u64`,
  `read_byte_buf`, `write_byte_buf`) and the serde-driven composite codec
  (bools, tuples, sequences, options) together with the integer-tagged
  unions produced by the `tagged_serde` derive macro;
* `framed_data.rs`: the framed-stream streaming copier `stream`;
* `nar.rs`: the NAR grammar parser `read_entry`, the streaming copier
  `stream` (tee-based), the in-memory `Nar` serializer and `Nar::sort`;
* `nix_daemon_proxy.rs` / `lib.rs`: the server-side handshake version
  checks.

Byte streams are modelled as `List Nat` (each wire byte is `< 256`);
readers consume a prefix of the list and return the remainder, writers
produce a `List Nat`.  Fallible reads return `Except` / `PRes`; loops
whose termination depends on the input are given explicit fuel, with the
distinguished result `PRes.diverge` marking fuel exhaustion, so that
non-termination of the Rust code appears as `∀ fuel, ... = .diverge`.
-/

namespace NixRemote

/-- A byte stream. Wire bytes are naturals `< 256`. -/
abbrev Bytes := List Nat

/-- `u64::to_le_bytes`: the 8 little-endian bytes of `n` (mod `2^64`). -/
def toLE8 (n : Nat) : Bytes :=
  [n % 256, n / 256 % 256, n / 65536 % 256, n / 16777216 % 256,
   n / 4294967296 % 256, n / 1099511627776 % 256,
   n / 281474976710656 % 256, n / 72057594037927936 % 256]

/-- `u64::from_le_bytes` on a list of little-endian bytes. -/
def leVal (bs : Bytes) : Nat := bs.foldr (fun b acc => b + 256 * acc) 0

/-- Errors of the (de)serialization layer, mirroring `serialize::Error` and
the `serde::de::Error::custom` messages used by `nar.rs` and the
`tagged_serde` derive.  `eof` is `std::io::ErrorKind::UnexpectedEof` as
produced by `read_exact`; the payload-carrying constructors keep the data
that the corresponding `custom(format!(...))` message interpolates. -/
inductive PErr : Type where
  | eof
  | badTag (got : Bytes) (expected : Bytes)
  | expectedContents (got : Bytes)
  | expectedEntry (got : Bytes)
  | unknownFileType (got : Bytes)
  | unknownVariantTag (tag : Nat)
  | wontImplement
  deriving DecidableEq, Repr

/-- `Read::read_exact` into a buffer of size `n`: fails with
`UnexpectedEof` when fewer than `n` bytes remain, otherwise consumes
exactly `n` bytes. -/
def readExact (n : Nat) (input : Bytes) : Except PErr (Bytes × Bytes) :=
  if input.length < n then .error .eof else .ok (input.take n, input.drop n)

/-- `NixDeserializer::read_u64` (serialize.rs:150): `read_exact` of 8
bytes, then `u64::from_le_bytes`. -/
def readU64 (input : Bytes) : Except PErr (Nat × Bytes) :=
  match readExact 8 input with
  | .error e => .error e
  | .ok (buf, rest) => .ok (leVal buf, rest)

/-- The padding after a byte buffer of length `len`, as computed by
`read_byte_buf`/`write_byte_buf`: `if len % 8 > 0 { 8 - len % 8 } else { 0 }`. -/
def padLen (len : Nat) : Nat := if len % 8 > 0 then 8 - len % 8 else 0

/-- `NixDeserializer::read_byte_buf` (serialize.rs:156): read a u64
length, `len` content bytes, and, when `len % 8 > 0`, `8 - len % 8`
padding bytes (whose values are not inspected). -/
def readByteBuf (input : Bytes) : Except PErr (Bytes × Bytes) :=
  match readU64 input with
  | .error e => .error e
  | .ok (len, rest) =>
    match readExact len rest with
    | .error e => .error e
    | .ok (buf, rest) =>
      if len % 8 > 0 then
        match readExact (8 - len % 8) rest with
        | .error e => .error e
        | .ok (_, rest) => .ok (buf, rest)
      else .ok (buf, rest)

/-- `NixSerializer::serialize_u64`: write the 8 little-endian bytes. -/
def writeU64 (n : Nat) : Bytes := toLE8 n

/-- `NixSerializer::write_byte_buf` (serialize.rs:178): the length as a
u64, the bytes, and zero padding up to the next multiple of 8. -/
def writeByteBuf (s : Bytes) : Bytes :=
  writeU64 s.length ++ s ++ List.replicate (padLen s.length) 0

@[simp] theorem toLE8_length (n : Nat) : (toLE8 n).length = 8 := by
  simp [toLE8]

theorem leVal_toLE8 (n : Nat) (h : n < 2 ^ 64) : leVal (toLE8 n) = n := by
  simp only [toLE8, leVal, List.foldr]
  omega

/-- `read_exact` on a stream that starts with exactly the requested
number of bytes consumes them and nothing more. -/
theorem readExact_of_length {l : Bytes} {k : Nat} (rest : Bytes) (h : l.length = k) :
    readExact k (l ++ rest) = .ok (l, rest) := by
  subst h
  rw [readExact, if_neg (by simp), List.take_left, List.drop_left]

theorem readU64_toLE8 (n : Nat) (rest : Bytes) (h : n < 2 ^ 64) :
    readU64 (toLE8 n ++ rest) = .ok (n, rest) := by
  rw [readU64, readExact_of_length rest (toLE8_length n)]
  simp [leVal_toLE8 n h]

theorem readByteBuf_writeByteBuf (bs : Bytes) (h : bs.length < 2 ^ 64) (rest : Bytes) :
    readByteBuf (writeByteBuf bs ++ rest) = .ok (bs, rest) := by
  simp only [writeByteBuf, writeU64, List.append_assoc]
  rw [readByteBuf, readU64_toLE8 bs.length _ h]
  simp only
  rw [readExact_of_length _ rfl]
  by_cases hmod : bs.length % 8 > 0
  · simp only [if_pos hmod]
    rw [readExact_of_length rest (by simp [padLen, hmod])]
  · simp only [if_neg hmod]
    have hz : padLen bs.length = 0 := by simp [padLen]; omega
    simp [hz]

/-!
## The supported wire types

`NixDeserializer` / `NixSerializer` (serialize.rs) support: u64 integers,
booleans (encoded as u64 `0`/`1`, decoded as `!= 0`), byte buffers,
tuples/structs (plain concatenation of the fields, modelled as nested
pairs with a unit), sequences (u64 count followed by the elements),
options (u64 tag `0`/`1`), and — through the `tagged_serde` derive —
integer-tagged unions (u64 tag followed by the variant body).
-/

/-- The wire types supported by the codec. -/
inductive WireTy : Type where
  | int
  | bool
  | bytes
  | unit
  | pair (a b : WireTy)
  | seq (elem : WireTy)
  | opt (inner : WireTy)
  | tagged (variants : List (Nat × WireTy))
  deriving Repr

/-- Values of the supported wire types. -/
inductive WireValue : Type where
  | int (n : Nat)
  | bool (b : Bool)
  | bytes (bs : Bytes)
  | unit
  | pair (a b : WireValue)
  | seq (elems : List WireValue)
  | none_
  | some_ (v : WireValue)
  | tagged (tag : Nat) (body : WireValue)
  deriving Repr

mutual
/-- The serializer (serialize.rs `impl Serializer for &mut NixSerializer`
together with the `tagged_serde` derive, which serializes a variant with
tag `t` and body `b` as the tuple `(t as u64, b)`). -/
def encodeVal : WireValue → Bytes
  | .int n => writeU64 n
  | .bool b => writeU64 (if b then 1 else 0)
  | .bytes bs => writeByteBuf bs
  | .unit => []
  | .pair a b => encodeVal a ++ encodeVal b
  | .seq vs => writeU64 vs.length ++ encodeValList vs
  | .none_ => writeU64 0
  | .some_ v => writeU64 1 ++ encodeVal v
  | .tagged tag body => writeU64 tag ++ encodeVal body

/-- Serialization of the elements of a sequence, in order
(`SerializeSeq::serialize_element`). -/
def encodeValList : List WireValue → Bytes
  | [] => []
  | v :: vs => encodeVal v ++ encodeValList vs
end

/-- First match of a tag in a `tagged_serde` variant list (the derive
expands to a `match tag { t1 => ..., t2 => ..., _ => unknown }`). -/
def lookupVariant (variants : List (Nat × WireTy)) (tag : Nat) : Option WireTy :=
  match variants with
  | [] => none
  | (t, ty) :: rest => if t = tag then some ty else lookupVariant rest tag

mutual
/-- The deserializer (serialize.rs `impl Deserializer for &mut
NixDeserializer`): `deserialize_u64` reads a u64; `deserialize_bool`
reads a u64 and yields `!= 0`; `deserialize_byte_buf` is
`read_byte_buf`; tuples/structs decode their fields in order;
`deserialize_seq` reads a u64 count then that many elements;
`deserialize_option` reads a u64 tag and yields `some` exactly when the
tag is `1`; a `tagged_serde` union reads a u64 tag and dispatches on it,
yielding an unknown-variant error carrying the tag when no variant
matches. -/
def decodeTy (ty : WireTy) (input : Bytes) : Except PErr (WireValue × Bytes) :=
  match ty with
  | .int =>
    match readU64 input with
    | .error e => .error e
    | .ok (n, rest) => .ok (.int n, rest)
  | .bool =>
    match readU64 input with
    | .error e => .error e
    | .ok (n, rest) => .ok (.bool (n != 0), rest)
  | .bytes =>
    match readByteBuf input with
    | .error e => .error e
    | .ok (bs, rest) => .ok (.bytes bs, rest)
  | .unit => .ok (.unit, input)
  | .pair a b =>
    match decodeTy a input with
    | .error e => .error e
    | .ok (va, rest) =>
      match decodeTy b rest with
      | .error e => .error e
      | .ok (vb, rest) => .ok (.pair va vb, rest)
  | .seq t =>
    match readU64 input with
    | .error e => .error e
    | .ok (n, rest) =>
      match decodeSeq t n rest with
      | .error e => .error e
      | .ok (vs, rest) => .ok (.seq vs, rest)
  | .opt t =>
    match readU64 input with
    | .error e => .error e
    | .ok (tag, rest) =>
      if tag = 1 then
        match decodeTy t rest with
        | .error e => .error e
        | .ok (v, rest) => .ok (.some_ v, rest)
      else .ok (.none_, rest)
  | .tagged vs =>
    match readU64 input with
    | .error e => .error e
    | .ok (tag, rest) => decodeVariants vs tag rest
termination_by (sizeOf ty, 0)

/-- The element loop of `deserialize_seq` (`Seq::next_element_seed`,
serialize.rs:129): decode `n` further elements. -/
def decodeSeq (t : WireTy) (n : Nat) (input : Bytes) : Except PErr (List WireValue × Bytes) :=
  match n with
  | 0 => .ok ([], input)
  | n + 1 =>
    match decodeTy t input with
    | .error e => .error e
    | .ok (v, rest) =>
      match decodeSeq t n rest with
      | .error e => .error e
      | .ok (vs, rest) => .ok (v :: vs, rest)
termination_by (sizeOf t, n + 1)

/-- The tag dispatch generated by the `tagged_serde` derive
(tagged-serde/src/lib.rs:128): try each variant's tag in order; an
unmatched tag produces the error `"unknown tag {tag} when deserializing
..."`, modelled as `PErr.unknownVariantTag tag`. -/
def decodeVariants (vs : List (Nat × WireTy)) (tag : Nat) (input : Bytes) :
    Except PErr (WireValue × Bytes) :=
  match vs with
  | [] => .error (.unknownVariantTag tag)
  | (t, ty) :: rest =>
    if t = tag then
      match decodeTy ty input with
      | .error e => .error e
      | .ok (v, r) => .ok (.tagged tag v, r)
    else decodeVariants rest tag input
termination_by (sizeOf vs, 0)
end

/-- Typing of wire values: `HasTy v t` says `v` is a value of the
supported type `t` that the serializer can faithfully represent (all
lengths, tags and integers fit in a u64; bytes are wire bytes). -/
inductive HasTy : WireValue → WireTy → Prop where
  | int {n : Nat} : n < 2 ^ 64 → HasTy (.int n) .int
  | bool {b : Bool} : HasTy (.bool b) .bool
  | bytes {bs : Bytes} : bs.length < 2 ^ 64 → (∀ b ∈ bs, b < 256) →
      HasTy (.bytes bs) .bytes
  | unit : HasTy .unit .unit
  | pair {a b ta tb} : HasTy a ta → HasTy b tb → HasTy (.pair a b) (.pair ta tb)
  | seq {vs : List WireValue} {t : WireTy} : vs.length < 2 ^ 64 →
      (∀ v ∈ vs, HasTy v t) → HasTy (.seq vs) (.seq t)
  | optNone {t : WireTy} : HasTy .none_ (.opt t)
  | optSome {v t} : HasTy v t → HasTy (.some_ v) (.opt t)
  | tagged {tag vs ty v} : tag < 2 ^ 64 → lookupVariant vs tag = some ty →
      HasTy v ty → HasTy (.tagged tag v) (.tagged vs)

theorem decodeVariants_lookup_some {vs : List (Nat × WireTy)} {tag : Nat}
    {ty : WireTy} {input : Bytes} {v : WireValue} {r : Bytes}
    (h : lookupVariant vs tag = some ty)
    (hd : decodeTy ty input = .ok (v, r)) :
    decodeVariants vs tag input = .ok (.tagged tag v, r) := by
  induction vs with
  | nil => simp [lookupVariant] at h
  | cons p rest ih =>
    obtain ⟨t, ty'⟩ := p
    rw [lookupVariant] at h
    rw [decodeVariants]
    by_cases ht : t = tag
    · rw [if_pos ht] at h ⊢
      obtain rfl : ty' = ty := by simpa using h
      rw [hd]
    · rw [if_neg ht] at h ⊢
      exact ih h

theorem decodeVariants_lookup_none {vs : List (Nat × WireTy)} {tag : Nat}
    {input : Bytes} (h : lookupVariant vs tag = none) :
    decodeVariants vs tag input = .error (.unknownVariantTag tag) := by
  induction vs with
  | nil => rw [decodeVariants]
  | cons p rest ih =>
    obtain ⟨t, ty'⟩ := p
    rw [lookupVariant] at h
    rw [decodeVariants]
    by_cases ht : t = tag
    · rw [if_pos ht] at h; cases h
    · rw [if_neg ht] at h ⊢
      exact ih h

theorem decodeSeq_encodeValList {t : WireTy} {vs : List WireValue}
    (ih : ∀ v ∈ vs, ∀ rest, decodeTy t (encodeVal v ++ rest) = .ok (v, rest)) :
    ∀ rest, decodeSeq t vs.length (encodeValList vs ++ rest) = .ok (vs, rest) := by
  induction vs with
  | nil => intro rest; simp [encodeValList, decodeSeq]
  | cons v vs ihl =>
    intro rest
    rw [encodeValList, List.length_cons, List.append_assoc, decodeSeq,
      ih v (by simp) (encodeValList vs ++ rest)]
    simp only [ihl (fun w hw r => ih w (by simp [hw]) r) rest]

/-- The decode-encode round trip, proved by induction on the typing
derivation.  (Shared helper for the round-trip claims.) -/
theorem decodeTy_encodeVal {v : WireValue} {t : WireTy} (h : HasTy v t) :
    ∀ rest, decodeTy t (encodeVal v ++ rest) = .ok (v, rest) := by
  induction h with
  | int hn =>
    intro rest
    rw [encodeVal, decodeTy]
    rw [writeU64, readU64_toLE8 _ rest hn]
  | bool =>
    intro rest
    rename_i b
    rw [encodeVal, decodeTy]
    rw [writeU64, readU64_toLE8 _ rest (by cases b <;> simp)]
    cases b <;> simp
  | bytes hlen _ =>
    intro rest
    rw [encodeVal, decodeTy]
    rw [readByteBuf_writeByteBuf _ hlen rest]
  | unit =>
    intro rest
    rw [encodeVal, decodeTy]
    simp
  | pair _ _ iha ihb =>
    intro rest
    rw [encodeVal, decodeTy]
    rw [List.append_assoc, iha]
    simp only [ihb]
  | seq hlen _ ih =>
    intro rest
    rw [encodeVal, decodeTy]
    rw [writeU64, List.append_assoc, readU64_toLE8 _ _ hlen]
    simp only [decodeSeq_encodeValList ih rest]
  | optNone =>
    intro rest
    rw [encodeVal, decodeTy]
    rw [writeU64, readU64_toLE8 _ rest (by norm_num)]
    simp
  | optSome _ ih =>
    intro rest
    rw [encodeVal, decodeTy]
    rw [writeU64, List.append_assoc, readU64_toLE8 _ _ (by norm_num)]
    simp [ih]
  | tagged htag hlook _ ih =>
    intro rest
    rw [encodeVal, decodeTy]
    rw [writeU64, List.append_assoc, readU64_toLE8 _ _ htag]
    simp only [decodeVariants_lookup_some hlook (ih rest)]

/-!
## Claims C2, C3, C5, C8: the primitive and composite codec
-/

/-- Claim C5: for every byte string of length `len`, decoding consumes
exactly the 8-byte length word, `len` body bytes and `(8 - len % 8) % 8`
pad bytes — failing with `UnexpectedEof` when the stream ends before all
of these are available — and encoding writes exactly the same layout
with zero bytes as pad. -/
theorem c5_byte_string_layout :
    (∀ s : Bytes,
      writeByteBuf s = toLE8 s.length ++ s ++ List.replicate ((8 - s.length % 8) % 8) 0)
    ∧ (∀ (len : Nat) (bs pad rest : Bytes), bs.length = len → len < 2 ^ 64 →
        pad.length = (8 - len % 8) % 8 →
        readByteBuf (toLE8 len ++ bs ++ pad ++ rest) = .ok (bs, rest))
    ∧ (∀ input : Bytes,
        input.length < 8 + leVal (input.take 8) + (8 - leVal (input.take 8) % 8) % 8 →
        readByteBuf input = .error .eof) := by
  refine ⟨?_, ?_, ?_⟩
  · intro s
    rw [writeByteBuf, writeU64]
    have : padLen s.length = (8 - s.length % 8) % 8 := by
      by_cases h : s.length % 8 > 0
      · rw [padLen, if_pos h]; omega
      · rw [padLen, if_neg h]; omega
    rw [this]
  · intro len bs pad rest hbs hlen hpad
    rw [List.append_assoc, List.append_assoc, readByteBuf, readU64_toLE8 _ _ hlen]
    simp only
    rw [readExact_of_length _ hbs]
    by_cases hmod : len % 8 > 0
    · simp only [if_pos hmod]
      rw [readExact_of_length rest (by omega)]
    · simp only [if_neg hmod]
      have : pad = [] := by
        refine List.eq_nil_of_length_eq_zero ?_
        omega
      rw [this, List.nil_append]
  · intro input h
    by_cases h8 : input.length < 8
    · rw [readByteBuf, readU64, readExact, if_pos h8]
    · have htk : (input.take 8).length = 8 := by simp; omega
      have hsplit : input = input.take 8 ++ input.drop 8 := (List.take_append_drop 8 input).symm
      rw [readByteBuf, readU64, hsplit, readExact_of_length _ htk]
      simp only
      set len := leVal (input.take 8) with hlen
      have hdlen : (input.drop 8).length = input.length - 8 := by simp
      by_cases hbody : (input.drop 8).length < len
      · rw [readExact, if_pos hbody]
      · have hmod : len % 8 > 0 := by omega
        rw [readExact, if_neg hbody]
        simp only [if_pos hmod]
        rw [readExact, if_pos (by simp; omega)]

theorem c5_witness :
    ([42] : Bytes).length = 1 ∧ (1 : Nat) < 2 ^ 64 ∧
    ([9, 9, 9, 9, 9, 9, 9] : Bytes).length = (8 - 1 % 8) % 8 ∧
    readByteBuf (toLE8 1 ++ [42] ++ [9, 9, 9, 9, 9, 9, 9] ++ [5]) = .ok ([42], [5]) :=
  ⟨rfl, by decide, by decide,
    c5_byte_string_layout.2.1 1 [42] [9, 9, 9, 9, 9, 9, 9] [5] rfl (by decide) (by decide)⟩

/-- Claim C2: for every value `v` of a supported wire type,
deserializing the bytes produced by serializing `v` yields `v` again
(and consumes exactly those bytes). -/
theorem c2_decode_encode_roundtrip (v : WireValue) (t : WireTy) (rest : Bytes)
    (h : HasTy v t) :
    decodeTy t (encodeVal v ++ rest) = .ok (v, rest) :=
  decodeTy_encodeVal h rest

def c2ExampleTy : WireTy := .pair (.pair .bytes .bool) (.tagged [(1, .int), (6, .bytes)])

def c2ExampleVal : WireValue :=
  .pair (.pair (.bytes [1, 2, 3]) (.bool true)) (.tagged 6 (.bytes []))

theorem c2_witness :
    HasTy c2ExampleVal c2ExampleTy ∧
    decodeTy c2ExampleTy (encodeVal c2ExampleVal ++ [7]) = .ok (c2ExampleVal, [7]) :=
  have h : HasTy c2ExampleVal c2ExampleTy :=
    .pair (.pair (.bytes (by decide) (by decide)) .bool)
      (.tagged (by decide) rfl (.bytes (by decide) (by decide)))
  ⟨h, c2_decode_encode_roundtrip c2ExampleVal c2ExampleTy [7] h⟩

/-- A byte sequence is a valid encoding of the wire type `t` when it is
the serialization of some value of that type (in particular its padding
region is all zeros and its option tags are `0`/`1`, as §3 of the spec
prescribes). -/
def ValidEncoding (t : WireTy) (b : Bytes) : Prop :=
  ∃ v, HasTy v t ∧ encodeVal v = b

/-- Claim C3: for every well-formed byte sequence `b` that is a valid
encoding of a supported wire type, serializing the value obtained by
deserializing `b` reproduces `b` byte for byte (the decoder consumes all
of `b`, including any padding region and option tag). -/
theorem c3_encode_decode_roundtrip (t : WireTy) (b : Bytes) (h : ValidEncoding t b) :
    ∃ v, decodeTy t b = .ok (v, []) ∧ encodeVal v = b := by
  obtain ⟨v, hv, rfl⟩ := h
  exact ⟨v, by simpa using decodeTy_encodeVal hv [], rfl⟩

def c3ExampleTy : WireTy := .pair .bytes (.opt .int)

/-- A value whose encoding exercises both a nonempty padding region (a
byte string of length 1 has 7 pad bytes) and an option tag. -/
def c3ExampleVal : WireValue := .pair (.bytes [42]) (.some_ (.int 3))

theorem c3_witness :
    ValidEncoding c3ExampleTy (encodeVal c3ExampleVal) ∧
    ∃ v, decodeTy c3ExampleTy (encodeVal c3ExampleVal) = .ok (v, []) ∧
      encodeVal v = encodeVal c3ExampleVal :=
  have h : ValidEncoding c3ExampleTy (encodeVal c3ExampleVal) :=
    ⟨c3ExampleVal, .pair (.bytes (by decide) (by decide)) (.optSome (.int (by decide))), rfl⟩
  ⟨h, c3_encode_decode_roundtrip c3ExampleTy (encodeVal c3ExampleVal) h⟩

/-- Claim C8: for every 64-bit tag value that matches no variant of a
tagged union, decoding returns an unknown-variant error reporting the
offending tag value, and no variant value is produced. -/
theorem c8_unknown_tag_error (vs : List (Nat × WireTy)) (tag : Nat) (input : Bytes)
    (htag : tag < 2 ^ 64) (h : lookupVariant vs tag = none) :
    decodeTy (.tagged vs) (toLE8 tag ++ input) = .error (.unknownVariantTag tag) := by
  rw [decodeTy, readU64_toLE8 _ _ htag]
  simp only [decodeVariants_lookup_none h]

/-- The variant table of `stderr::LoggerField` (stderr.rs:78):
`Int = 0` carries a u64, `String = 1` carries a byte buffer. -/
def loggerFieldVariants : List (Nat × WireTy) := [(0, .int), (1, .bytes)]

theorem c8_witness :
    (2 : Nat) < 2 ^ 64 ∧ lookupVariant loggerFieldVariants 2 = none ∧
    decodeTy (.tagged loggerFieldVariants) (toLE8 2 ++ []) =
      .error (.unknownVariantTag 2) :=
  ⟨by decide, rfl, c8_unknown_tag_error loggerFieldVariants 2 [] (by decide) rfl⟩

/-!
## Claim C4: the framed-data streaming copier (framed_data.rs `stream`)
-/

/-- The result of a fueled computation: `diverge` marks fuel exhaustion
and is used to under-approximate loops whose termination depends on the
input; a Rust loop that never terminates is modelled by a function that
returns `diverge` for every fuel. -/
inductive PRes (α : Type) : Type where
  | ok (val : α)
  | err (e : PErr)
  | diverge
  deriving DecidableEq, Repr

/-- The inner copy loop of framed_data.rs `stream` (lines 75–80): copy
`len` body bytes from source to sink in chunks of at most
`BUF_SIZE = 4096` via `read_exact`/`write_all`; returns the bytes
written and the remaining input. -/
def copyBody (len : Nat) (input : Bytes) : Except PErr (Bytes × Bytes) :=
  if _h : len = 0 then .ok ([], input)
  else
    match readExact (min len 4096) input with
    | .error e => .error e
    | .ok (chunk, rest) =>
      match copyBody (len - min len 4096) rest with
      | .error e => .error e
      | .ok (out, rest) => .ok (chunk ++ out, rest)
termination_by len
decreasing_by omega

/-- The chunked copy consumes and forwards exactly `len` bytes (or fails
with `UnexpectedEof` exactly when fewer than `len` bytes remain). -/
theorem copyBody_eq_readExact (len : Nat) (input : Bytes) :
    copyBody len input = readExact len input := by
  induction len using Nat.strong_induction_on generalizing input with
  | _ len ih =>
    by_cases h0 : len = 0
    · subst h0
      unfold copyBody
      simp [readExact]
    · unfold copyBody
      rw [dif_neg h0]
      have hck1 : 1 ≤ min len 4096 := by omega
      have hckle : min len 4096 ≤ len := by omega
      by_cases hshort : input.length < min len 4096
      · have hl : input.length < len := by omega
        rw [readExact, if_pos hshort, readExact, if_pos hl]
      · rw [readExact, if_neg hshort]
        simp only
        rw [ih (len - min len 4096) (by omega) (input.drop (min len 4096))]
        by_cases hshort2 : input.length < len
        · have hl : (input.drop (min len 4096)).length < len - min len 4096 := by
            simp; omega
          rw [readExact, if_pos hl, readExact, if_pos hshort2]
        · have hl : ¬ (input.drop (min len 4096)).length < len - min len 4096 := by
            simp; omega
          rw [readExact, if_neg hl, readExact, if_neg hshort2]
          simp only
          have h1 : min len 4096 + (len - min len 4096) = len := by omega
          have h2 : len - min len 4096 + min len 4096 = len := by omega
          rw [← List.take_add, List.drop_drop]
          simp only [h1, h2]

/-- framed_data.rs `stream` (lines 63–83): repeatedly read a u64 length,
re-serialize it to the sink, stop after forwarding a zero length,
otherwise copy exactly that many body bytes in 4096-byte chunks and
continue.  Returns the bytes written to the sink and the remaining
input; the loop gets explicit fuel (one unit per frame). -/
def framedStream (fuel : Nat) (input : Bytes) : PRes (Bytes × Bytes) :=
  match fuel with
  | 0 => .diverge
  | fuel + 1 =>
    match readU64 input with
    | .error e => .err e
    | .ok (len, rest) =>
      if len = 0 then .ok (writeU64 len, rest)
      else
        match copyBody len rest with
        | .error e => .err e
        | .ok (body, rest) =>
          match framedStream fuel rest with
          | .ok (out, rest) => .ok (writeU64 len ++ body ++ out, rest)
          | .err e => .err e
          | .diverge => .diverge

/-- The canonical wire form of a framed stream (framed_data.rs
`FramedData::write`): each chunk as an unpadded `(len, bytes)` pair, the
list terminated by a zero length. -/
def framedEncode (chunks : List Bytes) : Bytes :=
  match chunks with
  | [] => writeU64 0
  | c :: rest => writeU64 c.length ++ c ++ framedEncode rest

/-- Claim C4: for every framed stream (nonempty chunks, terminated by a
zero length, no padding), the streaming copier forwards each length and
body and stops right after the terminating zero; the bytes written to
the sink equal the bytes consumed from the source, and trailing bytes
are left unread. -/
theorem c4_framed_stream_copy (chunks : List Bytes) (rest : Bytes) (fuel : Nat)
    (hfuel : chunks.length < fuel)
    (hchunks : ∀ c ∈ chunks, c ≠ [] ∧ c.length < 2 ^ 64) :
    framedStream fuel (framedEncode chunks ++ rest) = .ok (framedEncode chunks, rest) := by
  induction chunks generalizing fuel rest with
  | nil =>
    obtain ⟨fuel, rfl⟩ : ∃ k, fuel = k + 1 := ⟨fuel - 1, by omega⟩
    rw [framedEncode, framedStream, writeU64, readU64_toLE8 0 rest (by norm_num)]
    simp [writeU64]
  | cons c chunks ih =>
    obtain ⟨fuel, rfl⟩ : ∃ k, fuel = k + 1 := ⟨fuel - 1, by omega⟩
    obtain ⟨hne, hlen⟩ := hchunks c (by simp)
    have hne0 : ¬ c.length = 0 := by simpa [List.length_eq_zero] using hne
    rw [framedEncode, framedStream]
    rw [List.append_assoc, List.append_assoc, writeU64, readU64_toLE8 _ _ hlen]
    simp only [if_neg hne0]
    rw [copyBody_eq_readExact, readExact_of_length _ rfl]
    simp only
    rw [ih rest fuel (by simpa using hfuel) (fun d hd => hchunks d (by simp [hd]))]
    simp [writeU64]

theorem c4_witness :
    ([[1, 2, 3], [7, 7, 7, 7, 7]] : List Bytes).length < 3 ∧
    (∀ c ∈ ([[1, 2, 3], [7, 7, 7, 7, 7]] : List Bytes), c ≠ [] ∧ c.length < 2 ^ 64) ∧
    framedStream 3 (framedEncode [[1, 2, 3], [7, 7, 7, 7, 7]] ++ [9, 9]) =
      .ok (framedEncode [[1, 2, 3], [7, 7, 7, 7, 7]], [9, 9]) :=
  ⟨by decide, by decide,
    c4_framed_stream_copy [[1, 2, 3], [7, 7, 7, 7, 7]] [9, 9] 3 (by decide) (by decide)⟩

/-!
## The NAR layer (nar.rs)

Every token of a NAR archive is a padded byte string (read through
`read_byte_buf`, written through `write_byte_buf`).  The streaming
parser `stream` reads from a `Tee`, which forwards every byte read to
the output writer, so on a successful parse the bytes written are
exactly the consumed prefix of the input.
-/

/-- The bytes of an ASCII token such as `"nix-archive-1"`. -/
def tagBytes (s : String) : Bytes := s.data.map Char.toNat

/-- Propagate a fallible read into a fueled computation (the `?` operator
on a `Result` in Rust). -/
def liftE {α β : Type} (r : Except PErr α) (k : α → PRes β) : PRes β :=
  match r with
  | .error e => .err e
  | .ok a => k a

/-- Sequencing of fueled computations (the `?` operator). -/
def bindP {α β : Type} (r : PRes α) (k : α → PRes β) : PRes β :=
  match r with
  | .ok a => k a
  | .err e => .err e
  | .diverge => .diverge

@[simp] theorem liftE_ok {α β : Type} (a : α) (k : α → PRes β) :
    liftE (.ok a) k = k a := rfl

@[simp] theorem liftE_error {α β : Type} (e : PErr) (k : α → PRes β) :
    liftE (.error e) k = .err e := rfl

@[simp] theorem bindP_ok {α β : Type} (a : α) (k : α → PRes β) :
    bindP (.ok a) k = k a := rfl

@[simp] theorem bindP_err {α β : Type} (e : PErr) (k : α → PRes β) :
    bindP (.err e) k = .err e := rfl

@[simp] theorem bindP_diverge {α β : Type} (k : α → PRes β) :
    bindP .diverge k = .diverge := rfl

/-- A token written with `write_byte_buf` (`serialize_buf` in nar.rs). -/
def tagStr (s : String) : Bytes := writeByteBuf (tagBytes s)

/-- `expect_tag` (nar.rs:216): read one string and compare it to `s`,
failing with the `got .. instead of ..` error on mismatch. -/
def expectTag (s : String) (input : Bytes) : Except PErr Bytes :=
  match readByteBuf input with
  | .error e => .error e
  | .ok (tag, rest) =>
    if tag = tagBytes s then .ok rest else .error (.badTag tag (tagBytes s))

theorem expectTag_tagStr (s : String) (h : (tagBytes s).length < 2 ^ 64)
    (rest : Bytes) :
    expectTag s (tagStr s ++ rest) = .ok rest := by
  rw [tagStr, expectTag, readByteBuf_writeByteBuf _ h rest]
  simp

theorem readByteBuf_tagStr (s : String) (h : (tagBytes s).length < 2 ^ 64)
    (rest : Bytes) :
    readByteBuf (tagStr s ++ rest) = .ok (tagBytes s, rest) :=
  readByteBuf_writeByteBuf _ h rest

/-- The copy loop of `NixDeserializer::write_string` (nar.rs:330–336):
while `remaining > 0`, `read` up to `min 4096 remaining` bytes (a plain
`read`, which returns however many bytes are available and `0` at end of
stream) and subtract however many arrived.  A read of `0` bytes leaves
`remaining` unchanged, so the loop gets explicit fuel; it can neither
fail nor finish once the input is exhausted with `remaining > 0`. -/
def writeStringLoop (fuel remaining : Nat) (input : Bytes) : PRes Bytes :=
  match fuel, remaining with
  | _, 0 => .ok input
  | 0, _ + 1 => .diverge
  | fuel + 1, _ + 1 =>
    writeStringLoop fuel (remaining - min (min 4096 remaining) input.length)
      (input.drop (min (min 4096 remaining) input.length))

/-- `NixDeserializer::write_string` (nar.rs:322): read the u64 length,
stream that many content bytes to the writer in 4096-byte chunks, then
`read_exact` the padding. -/
def writeString (fuel : Nat) (input : Bytes) : PRes Bytes :=
  match readU64 input with
  | .error e => .err e
  | .ok (len, rest) =>
    match writeStringLoop fuel len rest with
    | .diverge => .diverge
    | .err e => .err e
    | .ok rest =>
      if len % 8 > 0 then
        match readExact (8 - len % 8) rest with
        | .error e => .err e
        | .ok (_, rest) => .ok rest
      else .ok rest

theorem writeStringLoop_complete (fuel remaining : Nat) (input : Bytes)
    (hfuel : remaining ≤ fuel) (hlen : remaining ≤ input.length) :
    writeStringLoop fuel remaining input = .ok (input.drop remaining) := by
  induction fuel generalizing remaining input with
  | zero =>
    obtain rfl : remaining = 0 := by omega
    rw [writeStringLoop]
    simp
  | succ fuel ih =>
    cases remaining with
    | zero => rw [writeStringLoop]; simp
    | succ r =>
      rw [writeStringLoop]
      have hw : min (min 4096 (r + 1)) input.length = min 4096 (r + 1) :=
        Nat.min_eq_left (by omega)
      rw [hw, ih (r + 1 - min 4096 (r + 1)) (input.drop (min 4096 (r + 1))) (by omega)
        (by rw [List.length_drop]; omega)]
      have h1 : min 4096 (r + 1) + (r + 1 - min 4096 (r + 1)) = r + 1 := by omega
      have h2 : r + 1 - min 4096 (r + 1) + min 4096 (r + 1) = r + 1 := by omega
      rw [List.drop_drop]
      simp only [h1, h2]

/-- Claim C10 (the copy loop never returns once the input is exhausted):
if the reader delivers fewer bytes than `remaining` and then only
zero-byte reads, the loop neither succeeds nor errors, for any fuel. -/
theorem writeStringLoop_diverges (fuel remaining : Nat) (input : Bytes)
    (h : input.length < remaining) :
    writeStringLoop fuel remaining input = .diverge := by
  induction fuel generalizing remaining input with
  | zero =>
    match remaining, h with
    | r + 1, _ => rw [writeStringLoop]
  | succ fuel ih =>
    match remaining, h with
    | r + 1, h =>
      rw [writeStringLoop]
      exact ih _ _ (by rw [List.length_drop]; omega)

/-- Claim C10: for every declared content length `len` and every reader
that yields fewer than `len` bytes and then persistently returns
zero-byte reads (modelled as an input stream `body` with fewer than
`len` bytes), `NixDeserializer::write_string` never terminates and never
returns an error: for every fuel the outcome is `diverge`. -/
theorem c10_write_string_diverges (len : Nat) (body : Bytes) (fuel : Nat)
    (hlen : len < 2 ^ 64) (hshort : body.length < len) :
    writeString fuel (toLE8 len ++ body) = .diverge := by
  rw [writeString, readU64_toLE8 _ _ hlen]
  simp only [writeStringLoop_diverges fuel len body hshort]

theorem c10_witness :
    (5 : Nat) < 2 ^ 64 ∧ ([] : Bytes).length < 5 ∧
    writeString 1000 (toLE8 5 ++ []) = .diverge :=
  ⟨by decide, by decide, c10_write_string_diverges 5 [] 1000 (by decide) (by decide)⟩

mutual
/-- The in-memory NAR tree (nar.rs `Nar`): a regular file
(`Contents(NarFile { contents, executable })`), a symlink (`Target`), or
a directory of named entries (`Directory(Vec<NarDirectoryEntry>)`,
modelled as the isomorphic list type `NarEntries` so that all functions
below are plain mutual structural recursions). -/
inductive Nar : Type where
  | contents (contents : Bytes) (executable : Bool)
  | target (target : Bytes)
  | directory (entries : NarEntries)
  deriving DecidableEq, Repr

/-- A list of `NarDirectoryEntry { name, node }` values. -/
inductive NarEntries : Type where
  | nil
  | cons (name : Bytes) (node : Nar) (rest : NarEntries)
  deriving DecidableEq, Repr
end

mutual
/-- The serializer for one node (nar.rs `impl Serialize for
Untagged<&Nar>`, lines 406–448): `(`, `type`, then the kind-specific
body — for a regular file an optional `executable`/`""` pair followed by
`contents` and the contents; for a symlink `target` and the target; for
a directory the entries in stored order — and the closing `)`. -/
def narEncodeNode : Nar → Bytes
  | .contents c ex =>
    tagStr "(" ++ tagStr "type" ++ tagStr "regular"
      ++ (if ex then tagStr "executable" ++ tagStr "" else [])
      ++ tagStr "contents" ++ writeByteBuf c ++ tagStr ")"
  | .target t =>
    tagStr "(" ++ tagStr "type" ++ tagStr "symlink"
      ++ tagStr "target" ++ writeByteBuf t ++ tagStr ")"
  | .directory es =>
    tagStr "(" ++ tagStr "type" ++ tagStr "directory"
      ++ narEncodeEntries es ++ tagStr ")"

/-- Directory entries are emitted in stored order, each as
`entry ( name <name> node <node> )`. -/
def narEncodeEntries : NarEntries → Bytes
  | .nil => []
  | .cons name node rest =>
    tagStr "entry" ++ tagStr "(" ++ tagStr "name" ++ writeByteBuf name
      ++ tagStr "node" ++ narEncodeNode node ++ tagStr ")"
      ++ narEncodeEntries rest
end

/-- The serializer for a whole archive (nar.rs `impl Serialize for Nar`):
the `nix-archive-1` magic token followed by the root node. -/
def narEncode (n : Nar) : Bytes := tagStr "nix-archive-1" ++ narEncodeNode n

mutual
/-- All byte strings in the tree fit in a u64 length word (always true
of actual Rust `Vec<u8>` values). -/
def narWf : Nar → Bool
  | .contents c _ => decide (c.length < 2 ^ 64)
  | .target t => decide (t.length < 2 ^ 64)
  | .directory es => narWfEntries es

def narWfEntries : NarEntries → Bool
  | .nil => true
  | .cons name node rest =>
    decide (name.length < 2 ^ 64) && narWf node && narWfEntries rest
end

mutual
/-- Fuel sufficient for the fueled parser to consume the encoding of a
node: one unit to enter the node, one per directory entry, one per
executable marker, and the content length for the streaming copy loop. -/
def narFuel : Nar → Nat
  | .contents c _ => c.length + 3
  | .target _ => 1
  | .directory es => 1 + narFuelEntries es

def narFuelEntries : NarEntries → Nat
  | .nil => 1
  | .cons _ node rest => 1 + narFuel node + narFuelEntries rest
end

mutual
/-- `read_entry` (nar.rs:250–313) as run by the streaming copier
`stream`: the sink is `Null` (all structure is discarded), strings are
read with `NixDeserializer::expect_string` (= `read_byte_buf`) and file
contents are streamed with `NixDeserializer::write_string`.  Each
recursive call and loop iteration consumes one unit of fuel.  Returns
the remaining input. -/
def readEntryS (fuel : Nat) (input : Bytes) : PRes Bytes :=
  match fuel with
  | 0 => .diverge
  | fuel + 1 =>
    liftE (expectTag "(" input) fun input =>
    liftE (expectTag "type" input) fun input =>
    liftE (readByteBuf input) fun (ty, input) =>
      if ty = tagBytes "regular" then
        bindP (readExecS fuel input) fun (tag, input) =>
          if tag = tagBytes "contents" then
            bindP (writeString fuel input) fun input =>
            liftE (expectTag ")" input) fun input => .ok input
          else if tag = tagBytes ")" then .ok input
          else .err (.expectedContents tag)
      else if ty = tagBytes "symlink" then
        liftE (expectTag "target" input) fun input =>
        liftE (readByteBuf input) fun (_, input) =>
        liftE (expectTag ")" input) fun input => .ok input
      else if ty = tagBytes "directory" then
        readDirEntriesS fuel input
      else .err (.unknownFileType ty)

/-- The `executable` marker loop of the regular branch (nar.rs:261–267):
read a string; while it is `executable`, expect the empty string and
read the next one.  Returns the first non-marker tag. -/
def readExecS (fuel : Nat) (input : Bytes) : PRes (Bytes × Bytes) :=
  match fuel with
  | 0 => .diverge
  | fuel + 1 =>
    liftE (readByteBuf input) fun (tag, input) =>
      if tag = tagBytes "executable" then
        liftE (expectTag "" input) fun input => readExecS fuel input
      else .ok (tag, input)

/-- The directory entry loop (nar.rs:290–307): read a tag; `)` ends the
directory, `entry` parses `( name <name> node <node> )` and continues,
anything else is the `expected entry` error. -/
def readDirEntriesS (fuel : Nat) (input : Bytes) : PRes Bytes :=
  match fuel with
  | 0 => .diverge
  | fuel + 1 =>
    liftE (readByteBuf input) fun (tag, input) =>
      if tag = tagBytes ")" then .ok input
      else if tag = tagBytes "entry" then
        liftE (expectTag "(" input) fun input =>
        liftE (expectTag "name" input) fun input =>
        liftE (readByteBuf input) fun (_, input) =>
        liftE (expectTag "node" input) fun input =>
        bindP (readEntryS fuel input) fun input =>
        liftE (expectTag ")" input) fun input => readDirEntriesS fuel input
      else .err (.expectedEntry tag)
end

/-- nar.rs `stream` (lines 355–364): parse `nix-archive-1` followed by
one entry into the `Null` sink, reading through a `Tee` that forwards
every byte read to the output writer.  On success the bytes written are
therefore exactly the consumed prefix of the input; the function
returns them together with the unread remainder. -/
def streamNar (fuel : Nat) (input : Bytes) : PRes (Bytes × Bytes) :=
  liftE (expectTag "nix-archive-1" input) fun rest =>
  bindP (readEntryS fuel rest) fun rest =>
    .ok (input.take (input.length - rest.length), rest)

/-- `write_string` on a stream that starts with a complete padded byte
string consumes exactly that string (length word, contents, padding),
given enough fuel for the chunked copy. -/
theorem writeString_writeByteBuf (c : Bytes) (fuel : Nat)
    (hlen : c.length < 2 ^ 64) (hfuel : c.length ≤ fuel) (rest : Bytes) :
    writeString fuel (writeByteBuf c ++ rest) = .ok rest := by
  rw [writeByteBuf, writeU64, List.append_assoc, List.append_assoc, writeString,
    readU64_toLE8 _ _ hlen]
  simp only
  rw [writeStringLoop_complete fuel c.length _ hfuel (by simp), List.drop_left]
  by_cases hmod : c.length % 8 > 0
  · simp only [if_pos hmod]
    rw [readExact_of_length rest (by simp [padLen, hmod])]
  · simp only [if_neg hmod]
    have hz : padLen c.length = 0 := by simp [padLen]; omega
    simp [hz]

/-- The marker loop stops immediately on a non-`executable` string. -/
theorem readExecS_stop (s : Bytes) (fuel : Nat)
    (hs : s ≠ tagBytes "executable") (hlen : s.length < 2 ^ 64) (hf : 1 ≤ fuel)
    (rest : Bytes) :
    readExecS fuel (writeByteBuf s ++ rest) = .ok (s, rest) := by
  obtain ⟨f, rfl⟩ : ∃ k, fuel = k + 1 := ⟨fuel - 1, by omega⟩
  rw [readExecS, readByteBuf_writeByteBuf _ hlen]
  simp [hs]

/-- The marker loop consumes one `executable`/`""` pair and stops on the
following non-`executable` string. -/
theorem readExecS_one (s : Bytes) (fuel : Nat)
    (hs : s ≠ tagBytes "executable") (hlen : s.length < 2 ^ 64) (hf : 2 ≤ fuel)
    (rest : Bytes) :
    readExecS fuel (tagStr "executable" ++ tagStr "" ++ writeByteBuf s ++ rest) =
      .ok (s, rest) := by
  obtain ⟨f, rfl⟩ : ∃ k, fuel = k + 2 := ⟨fuel - 2, by omega⟩
  rw [List.append_assoc]
  rw [List.append_assoc]
  rw [readExecS]
  rw [readByteBuf_tagStr "executable" (by decide)]
  simp only [liftE_ok, if_pos rfl, if_true]
  rw [expectTag_tagStr "" (by decide)]
  rw [liftE_ok]
  exact readExecS_stop s (f + 1) hs hlen (by omega) rest

theorem tagNe_symlink_regular : tagBytes "symlink" ≠ tagBytes "regular" := by decide

theorem tagNe_directory_regular : tagBytes "directory" ≠ tagBytes "regular" := by decide

theorem tagNe_directory_symlink : tagBytes "directory" ≠ tagBytes "symlink" := by decide

theorem tagNe_entry_rparen : tagBytes "entry" ≠ tagBytes ")" := by decide

theorem tagNe_contents_executable : tagBytes "contents" ≠ tagBytes "executable" := by decide

theorem tagNe_rparen_executable : tagBytes ")" ≠ tagBytes "executable" := by decide

theorem readExecS_contents (fuel : Nat) (hf : 1 ≤ fuel) (rest : Bytes) :
    readExecS fuel (tagStr "contents" ++ rest) = .ok (tagBytes "contents", rest) :=
  readExecS_stop (tagBytes "contents") fuel tagNe_contents_executable (by decide) hf rest

theorem readExecS_exec_contents (fuel : Nat) (hf : 2 ≤ fuel) (rest : Bytes) :
    readExecS fuel (tagStr "executable" ++ (tagStr "" ++ (tagStr "contents" ++ rest))) =
      .ok (tagBytes "contents", rest) := by
  have h := readExecS_one (tagBytes "contents") fuel tagNe_contents_executable
    (by decide) hf rest
  simpa [List.append_assoc] using h

theorem narEncodeNode_contents_false (c : Bytes) :
    narEncodeNode (.contents c false) =
      tagStr "(" ++ (tagStr "type" ++ (tagStr "regular"
        ++ (tagStr "contents" ++ (writeByteBuf c ++ tagStr ")")))) := by
  rw [narEncodeNode]
  simp

theorem narEncodeNode_contents_true (c : Bytes) :
    narEncodeNode (.contents c true) =
      tagStr "(" ++ (tagStr "type" ++ (tagStr "regular"
        ++ (tagStr "executable" ++ (tagStr ""
          ++ (tagStr "contents" ++ (writeByteBuf c ++ tagStr ")")))))) := by
  rw [narEncodeNode]
  simp

/-- The streaming parser consumes exactly the serialization of a node
(`readEntryS`) and exactly the serialization of a directory entry list
followed by its closing `)` (`readDirEntriesS`), leaving the rest of the
input untouched. -/
theorem readEntryS_spec :
    ∀ fuel : Nat,
      (∀ nar : Nar, narWf nar = true → narFuel nar ≤ fuel →
        ∀ rest : Bytes, readEntryS fuel (narEncodeNode nar ++ rest) = .ok rest)
      ∧ (∀ es : NarEntries, narWfEntries es = true → narFuelEntries es ≤ fuel →
          ∀ rest : Bytes,
            readDirEntriesS fuel (narEncodeEntries es ++ (tagStr ")" ++ rest)) = .ok rest) := by
  intro fuel
  induction fuel with
  | zero =>
    constructor
    · intro nar _ hfe
      exfalso
      cases nar <;> simp only [narFuel] at hfe <;> omega
    · intro es _ hfe
      exfalso
      cases es <;> simp only [narFuelEntries] at hfe <;> omega
  | succ fuel ih =>
    obtain ⟨ihP, ihQ⟩ := ih
    constructor
    · intro nar hwf hfe rest
      cases nar with
      | contents c ex =>
        have hc : c.length < 2 ^ 64 := by
          simpa [narWf] using hwf
        have hfc : c.length + 3 ≤ fuel + 1 := by
          simpa [narFuel] using hfe
        cases ex with
        | false =>
          rw [narEncodeNode_contents_false]
          simp only [List.append_assoc]
          rw [readEntryS]
          simp only [expectTag_tagStr "(" (by decide), expectTag_tagStr "type" (by decide),
            readByteBuf_tagStr "regular" (by decide), liftE_ok, if_pos rfl, if_true,
            readExecS_contents fuel (by omega), bindP_ok,
            writeString_writeByteBuf c fuel hc (by omega),
            expectTag_tagStr ")" (by decide)]
        | true =>
          rw [narEncodeNode_contents_true]
          simp only [List.append_assoc]
          rw [readEntryS]
          simp only [expectTag_tagStr "(" (by decide), expectTag_tagStr "type" (by decide),
            readByteBuf_tagStr "regular" (by decide), liftE_ok, if_pos rfl, if_true,
            readExecS_exec_contents fuel (by omega), bindP_ok,
            writeString_writeByteBuf c fuel hc (by omega),
            expectTag_tagStr ")" (by decide)]
      | target t =>
        have ht : t.length < 2 ^ 64 := by
          simpa [narWf] using hwf
        rw [narEncodeNode]
        simp only [List.append_assoc]
        rw [readEntryS]
        simp only [expectTag_tagStr "(" (by decide), expectTag_tagStr "type" (by decide),
          readByteBuf_tagStr "symlink" (by decide), liftE_ok,
          tagNe_symlink_regular, if_false, if_pos rfl, if_true,
          expectTag_tagStr "target" (by decide),
          readByteBuf_writeByteBuf t ht, expectTag_tagStr ")" (by decide)]
      | directory es =>
        have hwfe : narWfEntries es = true := by
          simpa [narWf] using hwf
        have hfes : narFuelEntries es ≤ fuel := by
          simp only [narFuel] at hfe
          omega
        rw [narEncodeNode]
        simp only [List.append_assoc]
        rw [readEntryS]
        simp only [expectTag_tagStr "(" (by decide), expectTag_tagStr "type" (by decide),
          readByteBuf_tagStr "directory" (by decide), liftE_ok,
          tagNe_directory_regular, tagNe_directory_symlink, if_false, if_pos rfl, if_true,
          ihQ es hwfe hfes]
    · intro es hwf hfe rest
      cases es with
      | nil =>
        rw [narEncodeEntries, List.nil_append, readDirEntriesS]
        simp only [readByteBuf_tagStr ")" (by decide), liftE_ok, if_pos rfl, if_true]
      | cons name node es =>
        have hname : name.length < 2 ^ 64 := by
          simp only [narWfEntries, Bool.and_eq_true, decide_eq_true_eq] at hwf
          exact hwf.1.1
        have hwfn : narWf node = true := by
          simp only [narWfEntries, Bool.and_eq_true] at hwf
          exact hwf.1.2
        have hwfe : narWfEntries es = true := by
          simp only [narWfEntries, Bool.and_eq_true] at hwf
          exact hwf.2
        have hfn : narFuel node ≤ fuel := by
          simp only [narFuelEntries] at hfe
          omega
        have hfes : narFuelEntries es ≤ fuel := by
          simp only [narFuelEntries] at hfe
          omega
        rw [narEncodeEntries]
        simp only [List.append_assoc]
        rw [readDirEntriesS]
        simp only [readByteBuf_tagStr "entry" (by decide), liftE_ok,
          tagNe_entry_rparen, if_false, if_pos rfl, if_true,
          expectTag_tagStr "(" (by decide), expectTag_tagStr "name" (by decide),
          readByteBuf_writeByteBuf name hname, expectTag_tagStr "node" (by decide),
          ihP node hwfn hfn, bindP_ok, expectTag_tagStr ")" (by decide),
          ihQ es hwfe hfes]

/-- Byte-wise comparison of names (`Ord` on Rust `Vec<u8>`:
lexicographic, with a proper prefix ordered first): `lexLe a b` is
`a <= b`. -/
def lexLe : Bytes → Bytes → Bool
  | [], _ => true
  | _ :: _, [] => false
  | a :: as, b :: bs => if a < b then true else if b < a then false else lexLe as bs

mutual
/-- Every directory of the tree lists its entries in non-decreasing
byte-wise name order (the property claimed of the serializer's output),
recursively. -/
def narSortedLe : Nar → Bool
  | .contents _ _ => true
  | .target _ => true
  | .directory es => entriesSortedLe es

def entriesSortedLe : NarEntries → Bool
  | .nil => true
  | .cons _ node .nil => narSortedLe node
  | .cons n1 node (.cons n2 node2 rest) =>
    lexLe n1 n2 && narSortedLe node && entriesSortedLe (.cons n2 node2 rest)
end

/-- Claim C1: for every NAR archive in canonical wire form (entries
sorted), the NAR streaming copier `nar::stream` on an input that begins
with that archive writes exactly the archive's bytes to the output and
consumes exactly the archive's bytes from the input, leaving the bytes
after the archive unread. -/
theorem c1_nar_stream_exact (nar : Nar) (rest : Bytes) (fuel : Nat)
    (hwf : narWf nar = true) (hsorted : narSortedLe nar = true)
    (hfuel : narFuel nar ≤ fuel) :
    streamNar fuel (narEncode nar ++ rest) = .ok (narEncode nar, rest) := by
  have hassoc : narEncode nar ++ rest
      = tagStr "nix-archive-1" ++ (narEncodeNode nar ++ rest) := by
    rw [narEncode, List.append_assoc]
  rw [streamNar, hassoc]
  simp only [expectTag_tagStr "nix-archive-1" (by decide), liftE_ok,
    (readEntryS_spec fuel).1 nar hwf hfuel, bindP_ok]
  have hlen : (tagStr "nix-archive-1" ++ (narEncodeNode nar ++ rest)).length - rest.length
      = (narEncode nar).length := by
    simp [narEncode]
    omega
  rw [hlen, ← List.append_assoc, ← narEncode, List.take_left]

/-- The NAR of seed scenario 4 of the spec: a directory with one
executable regular file `run` whose contents are `hello`. -/
def c1ExampleNar : Nar :=
  .directory (.cons [114, 117, 110] (.contents [104, 101, 108, 108, 111] true) .nil)

theorem c1_witness :
    narWf c1ExampleNar = true ∧ narSortedLe c1ExampleNar = true ∧
    narFuel c1ExampleNar ≤ 20 ∧
    streamNar 20 (narEncode c1ExampleNar ++ [7, 7]) = .ok (narEncode c1ExampleNar, [7, 7]) :=
  ⟨by decide, by decide, by decide,
    c1_nar_stream_exact c1ExampleNar [7, 7] 20 (by decide) (by decide) (by decide)⟩

mutual
/-- `read_entry` (nar.rs:250–313) parsing into a `Nar` value, i.e. run
with the `EntrySink` implementation for `&mut Nar` (as `Deserialize for
Nar` does): `become_file` starts an empty non-executable file, every
`executable` marker sets the executable flag, `contents` appends the
contents bytes; `become_symlink` stores the target; `become_directory`
collects the entries in parse order (`create_entry` pushes to the
`Vec`).  Strings are read as padded byte buffers; file contents use the
default (buffered) `write_string`. -/
def readEntryB (fuel : Nat) (input : Bytes) : PRes (Nar × Bytes) :=
  match fuel with
  | 0 => .diverge
  | fuel + 1 =>
    liftE (expectTag "(" input) fun input =>
    liftE (expectTag "type" input) fun input =>
    liftE (readByteBuf input) fun (ty, input) =>
      if ty = tagBytes "regular" then
        bindP (readExecB fuel input) fun (ex, tag, input) =>
          if tag = tagBytes "contents" then
            liftE (readByteBuf input) fun (c, input) =>
            liftE (expectTag ")" input) fun input => .ok (.contents c ex, input)
          else if tag = tagBytes ")" then .ok (.contents [] ex, input)
          else .err (.expectedContents tag)
      else if ty = tagBytes "symlink" then
        liftE (expectTag "target" input) fun input =>
        liftE (readByteBuf input) fun (t, input) =>
        liftE (expectTag ")" input) fun input => .ok (.target t, input)
      else if ty = tagBytes "directory" then
        bindP (readDirEntriesB fuel input) fun (es, input) => .ok (.directory es, input)
      else .err (.unknownFileType ty)

/-- The `executable` marker loop, tracking whether `set_executable(true)`
was called: the first component is `true` exactly when at least one
marker pair was consumed. -/
def readExecB (fuel : Nat) (input : Bytes) : PRes (Bool × Bytes × Bytes) :=
  match fuel with
  | 0 => .diverge
  | fuel + 1 =>
    liftE (readByteBuf input) fun (tag, input) =>
      if tag = tagBytes "executable" then
        liftE (expectTag "" input) fun input =>
        bindP (readExecB fuel input) fun (_, tag, input) => .ok (true, tag, input)
      else .ok (false, tag, input)

/-- The directory entry loop, collecting `(name, node)` pairs in parse
order without any order check. -/
def readDirEntriesB (fuel : Nat) (input : Bytes) : PRes (NarEntries × Bytes) :=
  match fuel with
  | 0 => .diverge
  | fuel + 1 =>
    liftE (readByteBuf input) fun (tag, input) =>
      if tag = tagBytes ")" then .ok (.nil, input)
      else if tag = tagBytes "entry" then
        liftE (expectTag "(" input) fun input =>
        liftE (expectTag "name" input) fun input =>
        liftE (readByteBuf input) fun (name, input) =>
        liftE (expectTag "node" input) fun input =>
        bindP (readEntryB fuel input) fun (node, input) =>
        liftE (expectTag ")" input) fun input =>
        bindP (readDirEntriesB fuel input) fun (es, input) =>
          .ok (.cons name node es, input)
      else .err (.expectedEntry tag)
end

/-- `k` repetitions of the `("executable", "")` marker pair on the wire. -/
def execMarkers : Nat → Bytes
  | 0 => []
  | k + 1 => tagStr "executable" ++ (tagStr "" ++ execMarkers k)

theorem tagNe_rparen_contents : tagBytes ")" ≠ tagBytes "contents" := by decide

theorem readExecB_markers (k : Nat) (s : Bytes)
    (hs : s ≠ tagBytes "executable") (hlen : s.length < 2 ^ 64) :
    ∀ fuel, k + 1 ≤ fuel → ∀ rest,
      readExecB fuel (execMarkers k ++ (writeByteBuf s ++ rest)) =
        .ok (decide (0 < k), s, rest) := by
  induction k with
  | zero =>
    intro fuel hf rest
    obtain ⟨f, rfl⟩ : ∃ j, fuel = j + 1 := ⟨fuel - 1, by omega⟩
    rw [execMarkers, List.nil_append, readExecB, readByteBuf_writeByteBuf s hlen]
    simp [hs]
  | succ k ih =>
    intro fuel hf rest
    obtain ⟨f, rfl⟩ : ∃ j, fuel = j + 1 := ⟨fuel - 1, by omega⟩
    rw [execMarkers]
    simp only [List.append_assoc]
    rw [readExecB]
    simp only [readByteBuf_tagStr "executable" (by decide), liftE_ok, if_pos rfl, if_true,
      expectTag_tagStr "" (by decide), ih f (by omega) rest, bindP_ok]
    simp

/-- Claim C9: in the regular-file branch of `read_entry`, the parser
accepts any number of repeated `("executable", "")` marker pairs (the
file is marked executable exactly when at least one appears), accepts a
closing `)` with no `contents` token as an empty regular file, and
rejects any other tag in that position with the `expected contents`
error. -/
theorem c9_regular_branch :
    (∀ (k fuel : Nat) (rest : Bytes), k + 2 ≤ fuel →
      readEntryB fuel
          (tagStr "(" ++ (tagStr "type" ++ (tagStr "regular"
            ++ (execMarkers k ++ (tagStr ")" ++ rest))))) =
        .ok (.contents [] (decide (0 < k)), rest))
    ∧ (∀ (tag : Bytes) (fuel : Nat) (rest : Bytes),
        tag ≠ tagBytes "contents" → tag ≠ tagBytes ")" → tag ≠ tagBytes "executable" →
        tag.length < 2 ^ 64 → 2 ≤ fuel →
        readEntryB fuel
            (tagStr "(" ++ (tagStr "type" ++ (tagStr "regular"
              ++ (writeByteBuf tag ++ rest)))) =
          .err (.expectedContents tag)) := by
  constructor
  · intro k fuel rest hf
    obtain ⟨f, rfl⟩ : ∃ j, fuel = j + 1 := ⟨fuel - 1, by omega⟩
    rw [readEntryB]
    simp only [expectTag_tagStr "(" (by decide), expectTag_tagStr "type" (by decide),
      readByteBuf_tagStr "regular" (by decide), liftE_ok, if_pos rfl, if_true]
    have hm : readExecB f (execMarkers k ++ (tagStr ")" ++ rest)) =
        .ok (decide (0 < k), tagBytes ")", rest) :=
      readExecB_markers k (tagBytes ")") tagNe_rparen_executable (by decide) f (by omega) rest
    simp only [hm, bindP_ok, tagNe_rparen_contents, if_false, if_pos rfl, if_true]
  · intro tag fuel rest hc hp he hlen hf
    obtain ⟨f, rfl⟩ : ∃ j, fuel = j + 1 := ⟨fuel - 1, by omega⟩
    rw [readEntryB]
    simp only [expectTag_tagStr "(" (by decide), expectTag_tagStr "type" (by decide),
      readByteBuf_tagStr "regular" (by decide), liftE_ok, if_pos rfl, if_true]
    have hm : readExecB f (writeByteBuf tag ++ rest) = .ok (false, tag, rest) := by
      have := readExecB_markers 0 tag he hlen f (by omega) rest
      simpa [execMarkers] using this
    simp only [hm, bindP_ok, hc, hp, if_false]

theorem c9_witness :
    (2 : Nat) + 2 ≤ 10 ∧
    readEntryB 10
        (tagStr "(" ++ (tagStr "type" ++ (tagStr "regular"
          ++ (execMarkers 2 ++ (tagStr ")" ++ [5, 5]))))) =
      .ok (.contents [] true, [5, 5]) :=
  ⟨by decide, c9_regular_branch.1 2 10 [5, 5] (by decide)⟩

def NarEntries.toList : NarEntries → List (Bytes × Nar)
  | .nil => []
  | .cons n node rest => (n, node) :: toList rest

def NarEntries.ofList : List (Bytes × Nar) → NarEntries
  | [] => .nil
  | (n, node) :: rest => .cons n node (ofList rest)

/-- The comparator of `Nar::sort` (`|a, b| a.name.cmp(&b.name)`), as the
corresponding `≤` relation on entries. -/
def entryLe (a b : Bytes × Nar) : Prop := lexLe a.1 b.1 = true

instance : DecidableRel entryLe := fun a b =>
  inferInstanceAs (Decidable (lexLe a.1 b.1 = true))

mutual
/-- `Nar::sort` (nar.rs:39–48): recursively sort every directory's
entries by name (a stable comparison sort on names, modelled with
`List.insertionSort`).  Here each child is sorted before the entry list
is permuted; since the comparator looks only at the names, which
sorting a child leaves unchanged, the result equals the source's
sort-then-recurse order. -/
def narSort : Nar → Nar
  | .contents c ex => .contents c ex
  | .target t => .target t
  | .directory es =>
    .directory (NarEntries.ofList (List.insertionSort entryLe (narSortEntries es).toList))

/-- Sort each entry's node recursively (the `for e in entries { e.node.sort() }`
loop), keeping names and order. -/
def narSortEntries : NarEntries → NarEntries
  | .nil => .nil
  | .cons n node rest => .cons n (narSort node) (narSortEntries rest)
end

theorem lexLe_total (a b : Bytes) : lexLe a b = true ∨ lexLe b a = true := by
  induction a generalizing b with
  | nil => left; rfl
  | cons x as ih =>
    cases b with
    | nil => right; rfl
    | cons y bs =>
      rw [lexLe, lexLe]
      rcases Nat.lt_trichotomy x y with h | h | h
      · left
        rw [if_pos h]
      · subst h
        simp only [if_neg (Nat.lt_irrefl x)]
        exact ih bs
      · right
        rw [if_pos h]

theorem lexLe_trans (a b c : Bytes) (h1 : lexLe a b = true) (h2 : lexLe b c = true) :
    lexLe a c = true := by
  induction a generalizing b c with
  | nil => rfl
  | cons x as ih =>
    cases b with
    | nil => rw [lexLe] at h1; cases h1
    | cons y bs =>
      cases c with
      | nil => rw [lexLe] at h2; cases h2
      | cons z cs =>
        rw [lexLe] at h1 h2 ⊢
        by_cases hxy : x < y
        · by_cases hyz : y < z
          · rw [if_pos (by omega)]
          · rw [if_neg hyz] at h2
            by_cases hzy : z < y
            · rw [if_pos hzy] at h2; cases h2
            · rw [if_pos (by omega)]
        · rw [if_neg hxy] at h1
          by_cases hyx : y < x
          · rw [if_pos hyx] at h1; cases h1
          · rw [if_neg hyx] at h1
            by_cases hyz : y < z
            · rw [if_pos (by omega)]
            · rw [if_neg hyz] at h2
              by_cases hzy : z < y
              · rw [if_pos hzy] at h2; cases h2
              · rw [if_neg hzy] at h2
                rw [if_neg (by omega), if_neg (by omega)]
                exact ih bs cs h1 h2

instance : IsTotal (Bytes × Nar) entryLe :=
  ⟨fun a b => lexLe_total a.1 b.1⟩

instance : IsTrans (Bytes × Nar) entryLe :=
  ⟨fun a b c => lexLe_trans a.1 b.1 c.1⟩

theorem entriesSortedLe_ofList (L : List (Bytes × Nar))
    (hp : L.Pairwise entryLe) (hc : ∀ e ∈ L, narSortedLe e.2 = true) :
    entriesSortedLe (NarEntries.ofList L) = true := by
  induction L with
  | nil => rfl
  | cons e L ih =>
    obtain ⟨n, node⟩ := e
    cases L with
    | nil =>
      rw [NarEntries.ofList, NarEntries.ofList, entriesSortedLe]
      exact hc (n, node) (by simp)
    | cons e2 L2 =>
      obtain ⟨n2, node2⟩ := e2
      rw [NarEntries.ofList, NarEntries.ofList, entriesSortedLe]
      have h1 : lexLe n n2 = true :=
        List.rel_of_pairwise_cons hp (List.mem_cons_self (n2, node2) L2)
      have h2 : narSortedLe node = true := hc (n, node) (by simp)
      have h3 : entriesSortedLe (NarEntries.ofList ((n2, node2) :: L2)) = true :=
        ih hp.of_cons (fun d hd => hc d (by simp [hd]))
      rw [NarEntries.ofList] at h3
      simp [h1, h2, h3]

theorem mem_narSortEntries_toList : ∀ (es : NarEntries) (x : Bytes × Nar),
    x ∈ (narSortEntries es).toList →
    ∃ node, x.2 = narSort node ∧ narFuel node ≤ narFuelEntries es
  | .nil, x, hx => by
    rw [narSortEntries, NarEntries.toList] at hx
    cases hx
  | .cons n node rest, x, hx => by
    rw [narSortEntries, NarEntries.toList] at hx
    rcases List.mem_cons.mp hx with h | h
    · exact ⟨node, by rw [h], by rw [narFuelEntries]; omega⟩
    · obtain ⟨d, hd1, hd2⟩ := mem_narSortEntries_toList rest x h
      exact ⟨d, hd1, by rw [narFuelEntries]; omega⟩

theorem narSort_sortedLe_aux :
    ∀ k : Nat, ∀ nar : Nar, narFuel nar ≤ k → narSortedLe (narSort nar) = true := by
  intro k
  induction k using Nat.strong_induction_on with
  | _ k IH =>
    intro nar hk
    cases nar with
    | contents c ex => rw [narSort, narSortedLe]
    | target t => rw [narSort, narSortedLe]
    | directory es =>
      rw [narSort, narSortedLe]
      apply entriesSortedLe_ofList
      · exact List.sorted_insertionSort entryLe _
      · intro e he
        have hmem : e ∈ (narSortEntries es).toList :=
          (List.mem_insertionSort entryLe).mp he
        obtain ⟨node, he2, hb⟩ := mem_narSortEntries_toList es e hmem
        rw [he2]
        have hlt : narFuel node < k := by
          rw [narFuel] at hk
          omega
        exact IH (narFuel node) hlt node le_rfl

theorem readExecB_contents (fuel : Nat) (hf : 1 ≤ fuel) (rest : Bytes) :
    readExecB fuel (tagStr "contents" ++ rest) = .ok (false, tagBytes "contents", rest) := by
  have h := readExecB_markers 0 (tagBytes "contents") tagNe_contents_executable
    (by decide) fuel (by omega) rest
  simpa [execMarkers] using h

theorem readExecB_exec_contents (fuel : Nat) (hf : 2 ≤ fuel) (rest : Bytes) :
    readExecB fuel (tagStr "executable" ++ (tagStr "" ++ (tagStr "contents" ++ rest))) =
      .ok (true, tagBytes "contents", rest) := by
  have h := readExecB_markers 1 (tagBytes "contents") tagNe_contents_executable
    (by decide) fuel (by omega) rest
  simpa [execMarkers] using h

/-- The building parser inverts the serializer: parsing the encoding of
a node yields the node back — in particular directory entries come back
in the stored order, whether or not it is sorted (no order check). -/
theorem readEntryB_spec :
    ∀ fuel : Nat,
      (∀ nar : Nar, narWf nar = true → narFuel nar ≤ fuel →
        ∀ rest : Bytes, readEntryB fuel (narEncodeNode nar ++ rest) = .ok (nar, rest))
      ∧ (∀ es : NarEntries, narWfEntries es = true → narFuelEntries es ≤ fuel →
          ∀ rest : Bytes,
            readDirEntriesB fuel (narEncodeEntries es ++ (tagStr ")" ++ rest)) =
              .ok (es, rest)) := by
  intro fuel
  induction fuel with
  | zero =>
    constructor
    · intro nar _ hfe
      exfalso
      cases nar <;> simp only [narFuel] at hfe <;> omega
    · intro es _ hfe
      exfalso
      cases es <;> simp only [narFuelEntries] at hfe <;> omega
  | succ fuel ih =>
    obtain ⟨ihP, ihQ⟩ := ih
    constructor
    · intro nar hwf hfe rest
      cases nar with
      | contents c ex =>
        have hc : c.length < 2 ^ 64 := by
          simpa [narWf] using hwf
        have hfc : c.length + 3 ≤ fuel + 1 := by
          simpa [narFuel] using hfe
        cases ex with
        | false =>
          rw [narEncodeNode_contents_false]
          simp only [List.append_assoc]
          rw [readEntryB]
          simp only [expectTag_tagStr "(" (by decide), expectTag_tagStr "type" (by decide),
            readByteBuf_tagStr "regular" (by decide), liftE_ok, if_pos rfl, if_true,
            readExecB_contents fuel (by omega), bindP_ok,
            readByteBuf_writeByteBuf c hc, expectTag_tagStr ")" (by decide)]
        | true =>
          rw [narEncodeNode_contents_true]
          simp only [List.append_assoc]
          rw [readEntryB]
          simp only [expectTag_tagStr "(" (by decide), expectTag_tagStr "type" (by decide),
            readByteBuf_tagStr "regular" (by decide), liftE_ok, if_pos rfl, if_true,
            readExecB_exec_contents fuel (by omega), bindP_ok,
            readByteBuf_writeByteBuf c hc, expectTag_tagStr ")" (by decide)]
      | target t =>
        have ht : t.length < 2 ^ 64 := by
          simpa [narWf] using hwf
        rw [narEncodeNode]
        simp only [List.append_assoc]
        rw [readEntryB]
        simp only [expectTag_tagStr "(" (by decide), expectTag_tagStr "type" (by decide),
          readByteBuf_tagStr "symlink" (by decide), liftE_ok,
          tagNe_symlink_regular, if_false, if_pos rfl, if_true,
          expectTag_tagStr "target" (by decide),
          readByteBuf_writeByteBuf t ht, expectTag_tagStr ")" (by decide)]
      | directory es =>
        have hwfe : narWfEntries es = true := by
          simpa [narWf] using hwf
        have hfes : narFuelEntries es ≤ fuel := by
          simp only [narFuel] at hfe
          omega
        rw [narEncodeNode]
        simp only [List.append_assoc]
        rw [readEntryB]
        simp only [expectTag_tagStr "(" (by decide), expectTag_tagStr "type" (by decide),
          readByteBuf_tagStr "directory" (by decide), liftE_ok,
          tagNe_directory_regular, tagNe_directory_symlink, if_false, if_pos rfl, if_true,
          ihQ es hwfe hfes, bindP_ok]
    · intro es hwf hfe rest
      cases es with
      | nil =>
        rw [narEncodeEntries, List.nil_append, readDirEntriesB]
        simp only [readByteBuf_tagStr ")" (by decide), liftE_ok, if_pos rfl, if_true]
      | cons name node es =>
        have hname : name.length < 2 ^ 64 := by
          simp only [narWfEntries, Bool.and_eq_true, decide_eq_true_eq] at hwf
          exact hwf.1.1
        have hwfn : narWf node = true := by
          simp only [narWfEntries, Bool.and_eq_true] at hwf
          exact hwf.1.2
        have hwfe : narWfEntries es = true := by
          simp only [narWfEntries, Bool.and_eq_true] at hwf
          exact hwf.2
        have hfn : narFuel node ≤ fuel := by
          simp only [narFuelEntries] at hfe
          omega
        have hfes : narFuelEntries es ≤ fuel := by
          simp only [narFuelEntries] at hfe
          omega
        rw [narEncodeEntries]
        simp only [List.append_assoc]
        rw [readDirEntriesB]
        simp only [readByteBuf_tagStr "entry" (by decide), liftE_ok,
          tagNe_entry_rparen, if_false, if_pos rfl, if_true,
          expectTag_tagStr "(" (by decide), expectTag_tagStr "name" (by decide),
          readByteBuf_writeByteBuf name hname, expectTag_tagStr "node" (by decide),
          ihP node hwfn hfn, bindP_ok, expectTag_tagStr ")" (by decide),
          ihQ es hwfe hfes]

/-- A directory whose stored entries are not in ascending name order:
the entry named `b` (byte 98) is stored before the one named `a`
(byte 97). -/
def narUnsortedEx : Nar :=
  .directory (.cons [98] (.target [116]) (.cons [97] (.target [116]) .nil))

/-- Claim C6 counterexample: the serializer emits directory entries in
stored order, so for `narUnsortedEx` the emitted byte stream contains
the entry named `b` before the entry named `a` — not ascending byte-wise
order (`lexLe [98] [97] = false`).  The claim as stated therefore fails
at this value. -/
theorem c6_counterexample :
    narEncodeNode narUnsortedEx =
      tagStr "(" ++ (tagStr "type" ++ (tagStr "directory"
        ++ (tagStr "entry" ++ (tagStr "(" ++ (tagStr "name" ++ (writeByteBuf [98]
        ++ (tagStr "node" ++ (narEncodeNode (.target [116]) ++ (tagStr ")"
        ++ (tagStr "entry" ++ (tagStr "(" ++ (tagStr "name" ++ (writeByteBuf [97]
        ++ (tagStr "node" ++ (narEncodeNode (.target [116]) ++ (tagStr ")"
        ++ tagStr ")"))))))))))))))))
    ∧ lexLe [98] [97] = false
    ∧ narSortedLe narUnsortedEx = false := by
  refine ⟨?_, by decide, by decide⟩
  simp [narUnsortedEx, narEncodeNode, narEncodeEntries, List.append_assoc]

/-- Claim C6 (amended): serialization emits directory entries in stored
order, not sorted order.  `Nar::sort` recursively puts every directory's
entries in non-decreasing byte-wise name order — so a `Nar` that has
been sorted serializes with its entries in ascending order — and
parsing does not enforce any order: the parser accepts the unsorted
directory above, returning its entries in the stored (unsorted) order. -/
theorem c6_sort_and_parse_order :
    (∀ nar : Nar, narSortedLe (narSort nar) = true)
    ∧ (∀ (nar : Nar) (fuel : Nat) (rest : Bytes), narWf nar = true →
        narFuel nar ≤ fuel →
        readEntryB fuel (narEncodeNode nar ++ rest) = .ok (nar, rest))
    ∧ readEntryB 10 (narEncodeNode narUnsortedEx ++ []) = .ok (narUnsortedEx, []) := by
  refine ⟨?_, ?_, ?_⟩
  · intro nar
    exact narSort_sortedLe_aux (narFuel nar) nar le_rfl
  · intro nar fuel rest hwf hf
    exact (readEntryB_spec fuel).1 nar hwf hf rest
  · exact (readEntryB_spec 10).1 narUnsortedEx (by decide) (by decide) []

theorem c6_witness :
    narWf narUnsortedEx = true ∧ narFuel narUnsortedEx ≤ 10 ∧
    readEntryB 10 (narEncodeNode narUnsortedEx ++ [3]) = .ok (narUnsortedEx, [3]) :=
  ⟨by decide, by decide,
    c6_sort_and_parse_order.2.1 narUnsortedEx 10 [3] (by decide) (by decide)⟩

/-!
## Claim C7: the server-side handshake version check
-/

/-- The handshake magics (lib.rs:159–160; the spec's `MAGIC_1`/`MAGIC_2`). -/
def WORKER_MAGIC_1 : Nat := 0x6e697863

def WORKER_MAGIC_2 : Nat := 0x6478696f

/-- `DaemonVersion` (lib.rs:646). -/
structure DaemonVersion : Type where
  major : Nat
  minor : Nat

/-- The advertised protocol version, major 1 minor 34 (lib.rs:161). -/
def PROTOCOL_VERSION : DaemonVersion := ⟨1, 34⟩

/-- `impl From<DaemonVersion> for u64` (lib.rs:659): `(major << 8) | minor`. -/
def daemonVersionToU64 (v : DaemonVersion) : Nat := (v.major <<< 8) ||| v.minor

inductive HandshakeErr : Type where
  | badMagic (got : Nat)
  | clientTooOld (version : Nat)
  deriving DecidableEq, Repr

/-- `NixDaemonProxy::handshake_with_client` (nix_daemon_proxy.rs:28–54)
as a function of the words read from the client (the magic, the client
version, and the two obsolete fields, which are read and discarded).
The `todo!` on a magic mismatch and the `Err(anyhow!("Client version
{v} is too old"))` are modelled as errors; on success the function
returns all bytes written to the client: `WORKER_MAGIC_2`, the
advertised version word, the self-identification string, and the stderr
`Last` opcode. -/
def handshake_with_client (magic clientVersion cpuAffinity reserveSpace : Nat) :
    Except HandshakeErr Bytes :=
  if magic ≠ WORKER_MAGIC_1 then .error (.badMagic magic)
  else if clientVersion < daemonVersionToU64 PROTOCOL_VERSION then
    .error (.clientTooOld clientVersion)
  else
    .ok (writeU64 WORKER_MAGIC_2 ++ writeU64 (daemonVersionToU64 PROTOCOL_VERSION)
      ++ writeByteBuf (tagBytes "rust-nix-bazel-0.1.0") ++ writeU64 0x616c7473)

/-- The client-version gate of `NixReadWrite::process_connection`
(lib.rs:481–486): only versions below `0x10a` (1.10) are rejected; any
client version at or above `0x10a` proceeds (the obsolete fields and
the self-id string that follow are version-gated reads/writes that never
reject). -/
def process_connection_gate (magic clientVersion : Nat) : Except HandshakeErr Unit :=
  if magic ≠ WORKER_MAGIC_1 then .error (.badMagic magic)
  else if clientVersion < 0x10a then .error (.clientTooOld clientVersion)
  else .ok ()

/-- Claim C7 counterexample: the client version `0x110` is strictly
below the advertised version `0x122`, yet the `process_connection`
handshake accepts it and proceeds — so it is not true that every
version below `0x0122` is rejected by the server-side handshake. -/
theorem c7_counterexample :
    0x110 < daemonVersionToU64 PROTOCOL_VERSION ∧
    process_connection_gate WORKER_MAGIC_1 0x110 = .ok () := by
  exact ⟨by decide, rfl⟩

/-- Claim C7 (amended): the two server-side handshakes use different
version floors.  `handshake_with_client` (nix_daemon_proxy.rs) rejects
every client version strictly below the advertised `0x0122` and
proceeds at or above it; `process_connection` (lib.rs) rejects only
versions strictly below `0x010a` (1.10) and proceeds for every version
at or above `0x010a`, including versions below `0x0122`. -/
theorem c7_version_floors (v cpuAffinity reserveSpace : Nat) :
    daemonVersionToU64 PROTOCOL_VERSION = 0x122
    ∧ (handshake_with_client WORKER_MAGIC_1 v cpuAffinity reserveSpace).isOk
        = decide (0x122 ≤ v)
    ∧ (process_connection_gate WORKER_MAGIC_1 v).isOk = decide (0x10a ≤ v) := by
  have hval : daemonVersionToU64 PROTOCOL_VERSION = 0x122 := by decide
  refine ⟨hval, ?_, ?_⟩
  · rw [handshake_with_client, if_neg (by decide), hval]
    by_cases h : v < 0x122
    · rw [if_pos h]
      have hd : decide (0x122 ≤ v) = false := by
        simp
        omega
      rw [hd]
      rfl
    · rw [if_neg h]
      have hd : decide (0x122 ≤ v) = true := by
        simp
        omega
      rw [hd]
      rfl
  · rw [process_connection_gate, if_neg (by decide)]
    by_cases h : v < 0x10a
    · rw [if_pos h]
      have hd : decide (0x10a ≤ v) = false := by
        simp
        omega
      rw [hd]
      rfl
    · rw [if_neg h]
      have hd : decide (0x10a ≤ v) = true := by
        simp
        omega
      rw [hd]
      rfl

end NixRemote
